import Mathlib

/-!
Verification of the `reson` polyphonic synthesizer engine.

This file shallowly embeds the scheduler-relevant parts of the source
(`src/synth.rs`, `src/fade.rs`) into Lean:

* `f32` audio samples and pitches are modelled as `ℚ`; the transcendental
  operations `log2`/`exp2` (Rust `f32::log2`, `f32::powf` with base 2) are
  abstracted as an arbitrary pair of functions `FloatOps`, since none of the
  verified claims depend on their numeric values.
* The pluggable `Voice` trait is modelled by a record of functions
  `VoiceImpl V` over an arbitrary voice-state type `V`; its `process`
  returns the new voice state, the rendered stereo block, and the
  still-active flag, matching the Rust signature.
* `usize` counters are modelled as `ℕ`; the constant `usize::MAX` is kept
  explicit where the code uses it (`VoiceHandle::priority`).
* The Rust cast `f32 as usize` (truncate toward zero, saturate below at 0)
  is modelled by `ratToUsize`.
-/

/-- MIDI note number (`type Note = u8` in the source, 0–127). -/
abbrev Note := Nat

/-- The portamento setting for a synthesizer (`enum Portamento`). -/
inductive Portamento where
  | Off : Portamento
  | Fixed (time : ℚ) : Portamento
  | Variable (rate : ℚ) : Portamento
deriving DecidableEq

/-- Phase of a voice handle (`enum VoicePhase`). -/
inductive VoicePhase where
  | On (note : Note) : VoicePhase
  | Released (note : Note) : VoicePhase
  | Off : VoicePhase
deriving DecidableEq

/-- Glide state (`struct GlideState`): base-2 log of start and target pitch,
duration in samples, elapsed time in samples. -/
structure GlideState where
  start : ℚ
  target : ℚ
  duration : Nat
  time : Nat
deriving DecidableEq

/-- Context passed to a voice handle on trigger/release (`struct VoiceCtx`). -/
structure VoiceCtx where
  sample_rate : Nat
  portamento : Portamento
  counter : Nat

/-- The abstracted `f32` transcendental operations used by the scheduler. -/
structure FloatOps where
  exp2 : ℚ → ℚ
  log2 : ℚ → ℚ

/-- A model of the `Voice` trait: `reset`, `trigger`, `release`, and
`process` (returning the new state, the rendered stereo block as functions
from channel and sample index, and the still-active flag). -/
structure VoiceImpl (V : Type) where
  reset : V → V
  trigger : V → Note → Nat → V
  release : V → V
  process : V → ℚ → Nat → V × (Fin 2 → Nat → ℚ) × Bool

/-- The Rust cast `f32 as usize`: truncate toward zero, negative values
saturate to 0. -/
def ratToUsize (q : ℚ) : Nat := q.floor.toNat

/-- The value of `usize::MAX` on a 64-bit target. -/
def USIZE_MAX : Nat := 2 ^ 64 - 1

/-- The crossfade buffer (`struct FadeBuffer<N>`): two channel arrays of `N`
samples (modelled as functions; only indices `< N` are meaningful) and the
read cursor `index` (`N` means fully consumed). -/
structure FadeBuffer where
  N : Nat
  buffer : Fin 2 → Nat → ℚ
  index : Nat

/-- `FadeBuffer::new` / `Default::default`: zeroed buffer, cursor at `N`. -/
def FadeBuffer.new (n : Nat) : FadeBuffer := ⟨n, fun _ _ => 0, n⟩

/-- `FadeBuffer::add_voice`: the closure's rendered output (`render`, which
in the source overwrites the internal buffer) is faded linearly to zero,
the unread tail of the previous contents is added on top without re-fading,
and the read cursor resets to 0. -/
def FadeBuffer.add_voice (fb : FadeBuffer) (render : Fin 2 → Nat → ℚ) : FadeBuffer :=
  ⟨fb.N,
   fun ch i =>
     if i < fb.N then
       render ch i * (1 - (i : ℚ) / (fb.N : ℚ))
         + (if i < fb.N - fb.index then fb.buffer ch (fb.index + i) else 0)
     else fb.buffer ch i,
   0⟩

/-- `FadeBuffer::process`: adds `min(len, N - index)` buffer samples to the
start of each output channel and advances the cursor by that amount. -/
def FadeBuffer.process (fb : FadeBuffer) (len : Nat) (out : Fin 2 → Nat → ℚ) :
    (Fin 2 → Nat → ℚ) × FadeBuffer :=
  (fun ch idx =>
     if idx < min len (fb.N - fb.index) then out ch idx + fb.buffer ch (fb.index + idx)
     else out ch idx,
   ⟨fb.N, fb.buffer, fb.index + min len (fb.N - fb.index)⟩)

/-- A voice handle (`struct VoiceHandle<V>`): the voice state, the phase,
the resolved base pitch of the current note, the optional glide, and the
scheduler counter value recorded at the last trigger/release. -/
structure VoiceHandle (V : Type) where
  voice : V
  phase : VoicePhase
  pitch : ℚ
  glide : Option GlideState
  counter : Nat
deriving DecidableEq

/-- `VoiceHandle::new`. -/
def VoiceHandle.new {V : Type} (v : V) : VoiceHandle V :=
  ⟨v, VoicePhase.Off, 0, none, 0⟩

/-- `VoiceHandle::active`: true when the phase is not `Off`. -/
def VoiceHandle.active {V : Type} (h : VoiceHandle V) : Bool :=
  decide (h.phase ≠ VoicePhase.Off)

/-- `VoiceHandle::note_on`: the note currently in the `On` phase, if any. -/
def VoiceHandle.note_on {V : Type} (h : VoiceHandle V) : Option Note :=
  match h.phase with
  | VoicePhase.On note => some note
  | _ => none

/-- `VoiceHandle::priority`: the voice-allocation key; lowest wins. -/
def VoiceHandle.priority {V : Type} (h : VoiceHandle V) (note : Note) : Nat :=
  match h.phase with
  | VoicePhase.On n => if n = note then 0 else USIZE_MAX / 2 + h.counter
  | VoicePhase.Off => 1
  | VoicePhase.Released n => if n = note then 2 else 3 + h.counter

/-- `VoiceHandle::reset`: reset the voice and set the phase to `Off`. -/
def VoiceHandle.reset {V : Type} (impl : VoiceImpl V) (h : VoiceHandle V) : VoiceHandle V :=
  { h with voice := impl.reset h.voice, phase := VoicePhase.Off }

/-- The resolved pitch (`VoiceHandle::pitch`, renamed because the method
shadows the field): mid-glide it is `2^(start + t*(target-start))` with
`t = time / duration`; otherwise the stored base pitch. -/
def VoiceHandle.resolvedPitch {V : Type} (fo : FloatOps) (h : VoiceHandle V) : ℚ :=
  match h.glide with
  | some g =>
      fo.exp2 (g.start + ((g.time : ℚ) / (g.duration : ℚ)) * (g.target - g.start))
  | none => h.pitch

/-- `VoiceHandle::calc_glide`: a glide is computed only when the handle is
in phase `On` (the triggered note is not compared) and portamento is not
`Off`; `Fixed` durations are `time * sample_rate`, `Variable` durations are
`rate * |log2 start - log2 target| * sample_rate`, both cast to `usize`. -/
def VoiceHandle.calc_glide {V : Type} (fo : FloatOps) (h : VoiceHandle V)
    (target_pitch : ℚ) (ctx : VoiceCtx) : Option GlideState :=
  match h.phase with
  | VoicePhase.On _ =>
      match ctx.portamento with
      | Portamento.Fixed time =>
          some ⟨fo.log2 (h.resolvedPitch fo), fo.log2 target_pitch,
                ratToUsize (time * (ctx.sample_rate : ℚ)), 0⟩
      | Portamento.Variable rate =>
          some ⟨fo.log2 (h.resolvedPitch fo), fo.log2 target_pitch,
                ratToUsize (rate * |fo.log2 (h.resolvedPitch fo) - fo.log2 target_pitch|
                  * (ctx.sample_rate : ℚ)), 0⟩
      | Portamento.Off => none
  | _ => none

/-- `VoiceHandle::trigger`: install the computed glide if there is one,
otherwise trigger the underlying voice and clear the glide; then record the
pitch, the `On` phase and the scheduler counter. -/
def VoiceHandle.trigger {V : Type} (fo : FloatOps) (impl : VoiceImpl V) (h : VoiceHandle V)
    (note : Note) (velocity : Nat) (pitch : ℚ) (ctx : VoiceCtx) : VoiceHandle V :=
  match h.calc_glide fo pitch ctx with
  | some g =>
      { h with glide := some g, pitch := pitch, phase := VoicePhase.On note,
               counter := ctx.counter }
  | none =>
      { h with voice := impl.trigger h.voice note velocity, glide := none,
               pitch := pitch, phase := VoicePhase.On note, counter := ctx.counter }

/-- `VoiceHandle::release`: move an `On` or `Released` handle to `Released`
of the same note and record the counter; a no-op on an `Off` handle. -/
def VoiceHandle.release {V : Type} (impl : VoiceImpl V) (h : VoiceHandle V)
    (ctx : VoiceCtx) : VoiceHandle V :=
  match h.phase with
  | VoicePhase.Off => h
  | VoicePhase.On note =>
      { h with voice := impl.release h.voice, phase := VoicePhase.Released note,
               counter := ctx.counter }
  | VoicePhase.Released note =>
      { h with voice := impl.release h.voice, phase := VoicePhase.Released note,
               counter := ctx.counter }

/-- `VoiceHandle::process`: render a block at the bent resolved pitch, set
the phase to `Off` when the voice reports inactivity, then advance the
glide by the block length, clearing it once `time` reaches `duration`. -/
def VoiceHandle.process {V : Type} (fo : FloatOps) (impl : VoiceImpl V) (h : VoiceHandle V)
    (pitch_bend : ℚ) (num_samples : Nat) : VoiceHandle V × (Fin 2 → Nat → ℚ) :=
  let r := impl.process h.voice (h.resolvedPitch fo * pitch_bend) num_samples
  let h1 : VoiceHandle V :=
    { h with voice := r.1, phase := if r.2.2 then h.phase else VoicePhase.Off }
  let h2 : VoiceHandle V :=
    match h1.glide with
    | some g =>
        if g.duration ≤ g.time + num_samples then { h1 with glide := none }
        else { h1 with glide := some ⟨g.start, g.target, g.duration, g.time + num_samples⟩ }
    | none => h1
  (h2, r.2.1)

/-- Replaces the element at index `i` of a list, leaving the list unchanged
when the index is out of range (embedding plumbing for in-place mutation). -/
def setIdx {α : Type} : List α → Nat → α → List α
  | [], _, _ => []
  | _ :: t, 0, a => a :: t
  | h :: t, n + 1, a => h :: setIdx t n a

/-- The index and key of the first handle with minimal `priority`, mirroring
`Iterator::min_by_key` (which returns the first of several minima). -/
def selectVoice {V : Type} (note : Note) : List (VoiceHandle V) → Option (Nat × Nat)
  | [] => none
  | v :: rest =>
      match selectVoice note rest with
      | none => some (0, v.priority note)
      | some (i, k) =>
          if v.priority note ≤ k then some (0, v.priority note) else some (i + 1, k)

/-- The polyphonic branch of `Synth::release`: find the first handle whose
`note_on` matches and release it in place. -/
def releaseAt {V : Type} (impl : VoiceImpl V) (ctx : VoiceCtx) (note : Note) :
    List (VoiceHandle V) → Option (List (VoiceHandle V))
  | [] => none
  | v :: rest =>
      if v.note_on = some note then some (VoiceHandle.release impl v ctx :: rest)
      else (releaseAt impl ctx note rest).map (v :: ·)

/-- The scheduler state (`struct Synth<V>`): options that the verified
claims depend on are inlined (`tuning` as a pitch function, `mono`,
`portamento`), along with the voice bank, the monotonic counter, the
crossfade buffer, the pitch-bend ratio and the sample rate. -/
structure Synth (V : Type) where
  tuning : Note → ℚ
  mono : Bool
  portamento : Portamento
  voices : List (VoiceHandle V)
  counter : Nat
  fade_out : FadeBuffer
  pitch_bend : ℚ
  sample_rate : Nat

/-- `Synth::voice_ctx`. -/
def Synth.voice_ctx {V : Type} (s : Synth V) : VoiceCtx :=
  ⟨s.sample_rate, s.portamento, s.counter⟩

/-- `Synth::trigger`: in mono mode the single handle is targeted directly;
in polyphonic mode the minimum-priority handle is selected, and if it is
active its remaining audio is rendered into the crossfade buffer (a block
of `N` samples) and it is forcibly reset before being retargeted. The
counter increments once. -/
def Synth.trigger {V : Type} (fo : FloatOps) (impl : VoiceImpl V) (s : Synth V)
    (note : Note) (velocity : Nat) : Synth V :=
  let ctx := s.voice_ctx
  if s.mono then
    match s.voices with
    | [] => s
    | v :: rest =>
        { s with
            voices := VoiceHandle.trigger fo impl v note velocity (s.tuning note) ctx :: rest,
            counter := s.counter + 1 }
  else
    match selectVoice note s.voices with
    | none => s
    | some (i, _) =>
        match s.voices.get? i with
        | none => s
        | some v =>
            let fv : FadeBuffer × VoiceHandle V :=
              if v.active then
                let pr := VoiceHandle.process fo impl v s.pitch_bend s.fade_out.N
                (s.fade_out.add_voice pr.2, VoiceHandle.reset impl pr.1)
              else (s.fade_out, v)
            { s with
                voices := setIdx s.voices i
                  (VoiceHandle.trigger fo impl fv.2 note velocity (s.tuning note) ctx),
                fade_out := fv.1,
                counter := s.counter + 1 }

/-- `Synth::release`: in mono mode the single handle is released only when
its `note_on` matches; in polyphonic mode the first handle whose `note_on`
matches is released. The counter increments exactly when a handle matched. -/
def Synth.release {V : Type} (impl : VoiceImpl V) (s : Synth V) (note : Note) : Synth V :=
  let ctx := s.voice_ctx
  if s.mono then
    match s.voices with
    | [] => s
    | v :: rest =>
        if v.note_on = some note then
          { s with voices := VoiceHandle.release impl v ctx :: rest,
                   counter := s.counter + 1 }
        else s
  else
    match releaseAt impl ctx note s.voices with
    | none => s
    | some l => { s with voices := l, counter := s.counter + 1 }

/-- Processes a list of handles in order: inactive handles are skipped
(contributing silence), active ones are processed; outputs are summed.
This models the `written`-flag mixing of `Synth::process`, whose observable
result is exactly the sum of the active handles' blocks. -/
def processVoiceList {V : Type} (fo : FloatOps) (impl : VoiceImpl V) (pb : ℚ) (len : Nat) :
    List (VoiceHandle V) → List (VoiceHandle V) × (Fin 2 → Nat → ℚ)
  | [] => ([], fun _ _ => 0)
  | v :: rest =>
      let hd := if v.active then VoiceHandle.process fo impl v pb len
                else (v, fun _ _ => 0)
      let tl := processVoiceList fo impl pb len rest
      (hd.1 :: tl.1, fun ch i => hd.2 ch i + tl.2 ch i)

/-- `Synth::process`: the first handle only in mono mode, all handles in
polyphonic mode; the remaining mono handles are untouched; the crossfade
buffer is then overlaid additively onto the mixed output. -/
def Synth.process {V : Type} (fo : FloatOps) (impl : VoiceImpl V) (s : Synth V)
    (len : Nat) : Synth V × (Fin 2 → Nat → ℚ) :=
  let k := if s.mono then 1 else s.voices.length
  let pr := processVoiceList fo impl s.pitch_bend len (s.voices.take k)
  let fr := s.fade_out.process len pr.2
  ({ s with voices := pr.1 ++ s.voices.drop k, fade_out := fr.2 }, fr.1)

/-- One scheduler event, for stating invariants over event sequences. -/
inductive SynthOp where
  | trig (note : Note) (velocity : Nat) : SynthOp
  | rel (note : Note) : SynthOp
  | proc (len : Nat) : SynthOp

/-- Applies one scheduler event to the synth state. -/
def applyOp {V : Type} (fo : FloatOps) (impl : VoiceImpl V) (s : Synth V) :
    SynthOp → Synth V
  | SynthOp.trig note velocity => Synth.trigger fo impl s note velocity
  | SynthOp.rel note => Synth.release impl s note
  | SynthOp.proc len => (Synth.process fo impl s len).1

/-- The number of handles in phase `On note`. -/
def OnCount {V : Type} (note : Note) : List (VoiceHandle V) → Nat
  | [] => 0
  | v :: rest => (if v.phase = VoicePhase.On note then 1 else 0) + OnCount note rest

/-! ### Concrete instances used by the witnesses -/

/-- Identity stand-ins for the abstracted `f32` transcendentals. -/
def idOps : FloatOps := ⟨fun q => q, fun q => q⟩

/-- A trivial voice implementation over the unit state: renders silence and
always reports itself active. -/
def unitImpl : VoiceImpl Unit :=
  ⟨fun _ => (), fun _ _ _ => (), fun _ => (), fun _ _ _ => ((), fun _ _ => 0, true)⟩

/-- A small fresh two-voice polyphonic synth. -/
def synthA : Synth Unit :=
  ⟨fun _ => 440, false, Portamento.Off,
   [VoiceHandle.new (), VoiceHandle.new ()], 0, FadeBuffer.new 4, 1, 8⟩

/-- A mono synth with fixed portamento whose single handle is `On 60`. -/
def synthM : Synth Unit :=
  ⟨fun _ => 4, true, Portamento.Fixed 1,
   [⟨(), VoicePhase.On 60, 4, none, 0⟩], 3, FadeBuffer.new 4, 1, 2⟩

/-- A polyphonic synth whose single handle is `On 60` and whose crossfade
buffer is fully consumed (cursor at `N = 4`). -/
def synthR : Synth Unit :=
  ⟨fun _ => 4, false, Portamento.Off,
   [⟨(), VoicePhase.On 60, 4, none, 0⟩], 1, FadeBuffer.new 4, 1, 8⟩

/-- A polyphonic synth whose single handle is `Released 60`. -/
def synthRel : Synth Unit :=
  ⟨fun _ => 4, false, Portamento.Off,
   [⟨(), VoicePhase.Released 60, 4, none, 0⟩], 7, FadeBuffer.new 4, 1, 8⟩

/-- A polyphonic synth whose single handle is `On 60`, for the release
witness. -/
def synthC : Synth Unit :=
  ⟨fun _ => 4, false, Portamento.Off,
   [⟨(), VoicePhase.On 60, 4, none, 2⟩], 9, FadeBuffer.new 4, 1, 8⟩

/-- A polyphonic synth with variable portamento whose single handle is
`On 60`. -/
def synthB : Synth Unit :=
  ⟨fun _ => 4, false, Portamento.Variable 1,
   [⟨(), VoicePhase.On 60, 4, none, 0⟩], 0, FadeBuffer.new 2, 1, 2⟩


/-- Follows the spec's words for the stealing priority: retrigger of the
same note already `On` is 0; an idle (`Off`) handle is 1; a `Released`
handle for the same note is 2; other `Released` handles are
`3 + counter_at_release`; any other `On` handle is
`LARGE_OFFSET + counter_at_trigger`. -/
def prioritySpec {V : Type} (h : VoiceHandle V) (note : Note) : Nat :=
  if h.phase = VoicePhase.On note then 0
  else if h.phase = VoicePhase.Off then 1
  else if h.phase = VoicePhase.Released note then 2
  else match h.phase with
    | VoicePhase.Released _ => 3 + h.counter
    | _ => USIZE_MAX / 2 + h.counter

/-! ### Helper lemmas: list plumbing -/

theorem get?_setIdx_ne {α : Type} :
    ∀ (l : List α) (i j : Nat) (a : α), i ≠ j → (setIdx l i a).get? j = l.get? j := by
  intro l
  induction l with
  | nil => intro i j a _; cases i <;> rfl
  | cons x t ih =>
      intro i j a hne
      cases i with
      | zero =>
          cases j with
          | zero => exact absurd rfl hne
          | succ j => rfl
      | succ i =>
          cases j with
          | zero => rfl
          | succ j =>
              simp only [setIdx, List.get?_cons_succ]
              exact ih i j a (fun h => hne (by rw [h]))

theorem get?_setIdx_self {α : Type} :
    ∀ (l : List α) (i : Nat) (a : α) (b : α), l.get? i = some b → (setIdx l i a).get? i = some a := by
  intro l
  induction l with
  | nil => intro i a b h; cases i <;> simp [List.get?] at h
  | cons x t ih =>
      intro i a b h
      cases i with
      | zero => rfl
      | succ i =>
          simp only [setIdx, List.get?_cons_succ]
          exact ih i a b h

/-! ### Helper lemmas: priority and selection -/

/-- A handle has allocation key 0 exactly when it is `On` the given note. -/
theorem priority_eq_zero_iff {V : Type} (h : VoiceHandle V) (note : Note) :
    h.priority note = 0 ↔ h.phase = VoicePhase.On note := by
  unfold VoiceHandle.priority
  cases hp : h.phase with
  | On n =>
      by_cases hn : n = note
      · simp [hn]
      · have : USIZE_MAX / 2 ≠ 0 := by decide
        simp [hn]
        omega
  | Released n =>
      by_cases hn : n = note
      · simp [hn]
      · simp [hn]
  | Off => simp

theorem selectVoice_eq_none {V : Type} (note : Note) (l : List (VoiceHandle V)) :
    selectVoice note l = none ↔ l = [] := by
  cases l with
  | nil => simp [selectVoice]
  | cons v rest =>
      simp only [selectVoice]
      cases selectVoice note rest with
      | none => simp
      | some p =>
          obtain ⟨i', k'⟩ := p
          by_cases hle : v.priority note ≤ k' <;> simp [hle]

theorem selectVoice_get? {V : Type} (note : Note) :
    ∀ (l : List (VoiceHandle V)) (i k : Nat), selectVoice note l = some (i, k) →
      ∃ v, l.get? i = some v ∧ v.priority note = k := by
  intro l
  induction l with
  | nil => intro i k h; simp [selectVoice] at h
  | cons v rest ih =>
      intro i k h
      simp only [selectVoice] at h
      cases hrec : selectVoice note rest with
      | none =>
          rw [hrec] at h
          simp at h
          exact ⟨v, by simp [← h.1], h.2⟩
      | some p =>
          obtain ⟨i', k'⟩ := p
          rw [hrec] at h
          by_cases hle : v.priority note ≤ k'
          · simp [hle] at h
            exact ⟨v, by simp [← h.1], h.2⟩
          · simp [hle] at h
            obtain ⟨v', hv1, hv2⟩ := ih i' k' hrec
            refine ⟨v', ?_, by rw [hv2, h.2]⟩
            rw [← h.1]
            simpa using hv1

theorem selectVoice_min {V : Type} (note : Note) :
    ∀ (l : List (VoiceHandle V)) (i k : Nat), selectVoice note l = some (i, k) →
      ∀ w ∈ l, k ≤ w.priority note := by
  intro l
  induction l with
  | nil => intro i k h; simp [selectVoice] at h
  | cons v rest ih =>
      intro i k h w hw
      simp only [selectVoice] at h
      cases hrec : selectVoice note rest with
      | none =>
          rw [hrec] at h
          simp at h
          have hrest : rest = [] := (selectVoice_eq_none note rest).mp hrec

          subst hrest
          rcases List.mem_cons.mp hw with hw | hw
          · rw [hw, ← h.2]
          · simp at hw
      | some p =>
          obtain ⟨i', k'⟩ := p
          rw [hrec] at h
          by_cases hle : v.priority note ≤ k'
          · simp [hle] at h
            rcases List.mem_cons.mp hw with hw | hw
            · rw [hw, ← h.2]
            · calc k = v.priority note := h.2.symm
                _ ≤ k' := hle
                _ ≤ w.priority note := ih i' k' hrec w hw
          · simp [hle] at h
            rcases List.mem_cons.mp hw with hw | hw
            · subst hw
              have h2 := h.2
              omega
            · rw [← h.2]
              exact ih i' k' hrec w hw

theorem selectVoice_isSome {V : Type} (note : Note) (l : List (VoiceHandle V)) (hne : l ≠ []) :
    ∃ i k, selectVoice note l = some (i, k) := by
  cases l with
  | nil => exact absurd rfl hne
  | cons v rest =>
      simp only [selectVoice]
      cases selectVoice note rest with
      | none => exact ⟨0, v.priority note, rfl⟩
      | some p =>
          obtain ⟨i', k'⟩ := p
          by_cases hle : v.priority note ≤ k'
          · exact ⟨0, v.priority note, by simp [hle]⟩
          · exact ⟨i' + 1, k', by simp [hle]⟩

/-! ### Helper lemmas: counting `On` handles -/

theorem OnCount_append {V : Type} (note : Note) :
    ∀ (l1 l2 : List (VoiceHandle V)),
      OnCount note (l1 ++ l2) = OnCount note l1 + OnCount note l2 := by
  intro l1 l2
  induction l1 with
  | nil => simp [OnCount]
  | cons v t ih => simp [OnCount, ih]; omega

theorem OnCount_setIdx {V : Type} (note : Note) :
    ∀ (l : List (VoiceHandle V)) (i : Nat) (v w : VoiceHandle V), l.get? i = some v →
      OnCount note (setIdx l i w) + (if v.phase = VoicePhase.On note then 1 else 0)
        = OnCount note l + (if w.phase = VoicePhase.On note then 1 else 0) := by
  intro l
  induction l with
  | nil => intro i v w h; cases i <;> simp [List.get?] at h
  | cons x t ih =>
      intro i v w h
      cases i with
      | zero =>
          simp only [List.get?_cons_zero, Option.some.injEq] at h
          subst h
          simp only [setIdx, OnCount]
          omega
      | succ i =>
          simp only [List.get?_cons_succ] at h
          simp only [setIdx, OnCount]
          have := ih i v w h
          omega

theorem OnCount_pos {V : Type} (note : Note) :
    ∀ (l : List (VoiceHandle V)), 1 ≤ OnCount note l →
      ∃ w ∈ l, w.phase = VoicePhase.On note := by
  intro l
  induction l with
  | nil => intro h; simp [OnCount] at h
  | cons v t ih =>
      intro h
      simp only [OnCount] at h
      by_cases hv : v.phase = VoicePhase.On note
      · exact ⟨v, List.mem_cons_self v t, hv⟩
      · simp [hv] at h
        obtain ⟨w, hw1, hw2⟩ := ih h
        exact ⟨w, List.mem_cons_of_mem v hw1, hw2⟩

theorem OnCount_eq_zero {V : Type} (note : Note) :
    ∀ (l : List (VoiceHandle V)), (∀ v ∈ l, v.phase = VoicePhase.Off) →
      OnCount note l = 0 := by
  intro l
  induction l with
  | nil => intro _; rfl
  | cons v t ih =>
      intro h
      have hv := h v (List.mem_cons_self v t)
      simp only [OnCount, hv]
      simp [ih (fun w hw => h w (List.mem_cons_of_mem v hw))]

/-! ### Helper lemmas: phases through the voice-handle operations -/

/-- A freshly triggered handle is in phase `On note`. -/
theorem trigger_phase {V : Type} (fo : FloatOps) (impl : VoiceImpl V) (h : VoiceHandle V)
    (note : Note) (velocity : Nat) (pitch : ℚ) (ctx : VoiceCtx) :
    (VoiceHandle.trigger fo impl h note velocity pitch ctx).phase = VoicePhase.On note := by
  unfold VoiceHandle.trigger
  cases h.calc_glide fo pitch ctx <;> rfl

/-- A freshly triggered handle records the context counter. -/
theorem trigger_counter {V : Type} (fo : FloatOps) (impl : VoiceImpl V) (h : VoiceHandle V)
    (note : Note) (velocity : Nat) (pitch : ℚ) (ctx : VoiceCtx) :
    (VoiceHandle.trigger fo impl h note velocity pitch ctx).counter = ctx.counter := by
  unfold VoiceHandle.trigger
  cases h.calc_glide fo pitch ctx <;> rfl

/-- The glide of a freshly triggered handle is whatever `calc_glide` chose. -/
theorem trigger_glide {V : Type} (fo : FloatOps) (impl : VoiceImpl V) (h : VoiceHandle V)
    (note : Note) (velocity : Nat) (pitch : ℚ) (ctx : VoiceCtx) :
    (VoiceHandle.trigger fo impl h note velocity pitch ctx).glide
      = h.calc_glide fo pitch ctx := by
  unfold VoiceHandle.trigger
  cases hg : h.calc_glide fo pitch ctx <;> simp

/-- `calc_glide` yields a glide exactly when the handle is `On` (any note)
and portamento is enabled. -/
theorem calc_glide_isSome_iff {V : Type} (fo : FloatOps) (h : VoiceHandle V)
    (target_pitch : ℚ) (ctx : VoiceCtx) :
    (h.calc_glide fo target_pitch ctx).isSome = true ↔
      ((∃ n, h.phase = VoicePhase.On n) ∧ ctx.portamento ≠ Portamento.Off) := by
  unfold VoiceHandle.calc_glide
  cases hp : h.phase with
  | On n =>
      cases hport : ctx.portamento <;> simp [hport]
  | Released n => simp
  | Off => simp

/-- Processing a block leaves the phase unchanged or sets it to `Off`. -/
theorem process_phase {V : Type} (fo : FloatOps) (impl : VoiceImpl V) (h : VoiceHandle V)
    (pb : ℚ) (len : Nat) :
    (VoiceHandle.process fo impl h pb len).1.phase = h.phase ∨
      (VoiceHandle.process fo impl h pb len).1.phase = VoicePhase.Off := by
  unfold VoiceHandle.process
  cases hact : (impl.process h.voice (h.resolvedPitch fo * pb) len).2.2 <;>
    simp only [hact] <;>
    cases h.glide with
    | none => simp
    | some g =>
        by_cases hd : g.duration ≤ g.time + len <;> simp [hd]

/-- Releasing a handle that is `On note` moves it to `Released note` and
records the context counter. -/
theorem release_phase_of_on {V : Type} (impl : VoiceImpl V) (h : VoiceHandle V)
    (note : Note) (ctx : VoiceCtx) (hp : h.phase = VoicePhase.On note) :
    (VoiceHandle.release impl h ctx).phase = VoicePhase.Released note ∧
      (VoiceHandle.release impl h ctx).counter = ctx.counter := by
  unfold VoiceHandle.release
  rw [hp]
  exact ⟨rfl, rfl⟩

/-- `note_on` yields a note exactly for the `On` phase. -/
theorem note_on_eq_some_iff {V : Type} (h : VoiceHandle V) (note : Note) :
    h.note_on = some note ↔ h.phase = VoicePhase.On note := by
  unfold VoiceHandle.note_on
  cases hp : h.phase <;> simp

/-! ### Helper lemmas: releaseAt -/

theorem releaseAt_none_iff {V : Type} (impl : VoiceImpl V) (ctx : VoiceCtx) (note : Note) :
    ∀ (l : List (VoiceHandle V)), releaseAt impl ctx note l = none ↔
      ∀ v ∈ l, v.note_on ≠ some note := by
  intro l
  induction l with
  | nil => simp [releaseAt]
  | cons v rest ih =>
      simp only [releaseAt]
      by_cases hv : v.note_on = some note
      · simp [hv]
      · simp only [hv, if_false]
        constructor
        · intro h w hw
          rcases List.mem_cons.mp hw with hw | hw
          · rw [hw]; exact hv
          · cases hrec : releaseAt impl ctx note rest with
            | none => exact (ih.mp hrec) w hw
            | some l' => rw [hrec] at h; simp at h
        · intro h
          have : releaseAt impl ctx note rest = none :=
            ih.mpr (fun w hw => h w (List.mem_cons_of_mem v hw))
          rw [this]; rfl

theorem releaseAt_some {V : Type} (impl : VoiceImpl V) (ctx : VoiceCtx) (note : Note) :
    ∀ (l l' : List (VoiceHandle V)), releaseAt impl ctx note l = some l' →
      ∃ i v, l.get? i = some v ∧ v.note_on = some note ∧
        l' = setIdx l i (VoiceHandle.release impl v ctx) := by
  intro l
  induction l with
  | nil => intro l' h; simp [releaseAt] at h
  | cons v rest ih =>
      intro l' h
      simp only [releaseAt] at h
      by_cases hv : v.note_on = some note
      · simp only [hv, if_true] at h
        refine ⟨0, v, rfl, hv, ?_⟩
        simp at h
        rw [← h]
        rfl
      · simp only [hv, if_false] at h
        cases hrec : releaseAt impl ctx note rest with
        | none => rw [hrec] at h; simp at h
        | some l'' =>
            rw [hrec] at h
            simp at h
            obtain ⟨i, w, hw1, hw2, hw3⟩ := ih l'' hrec
            exact ⟨i + 1, w, hw1, hw2, by rw [← h, hw3]; rfl⟩

/-! ### Helper lemmas: the `On`-uniqueness invariant -/

theorem processVoiceList_OnCount {V : Type} (fo : FloatOps) (impl : VoiceImpl V)
    (pb : ℚ) (len : Nat) (note : Note) :
    ∀ (l : List (VoiceHandle V)),
      OnCount note (processVoiceList fo impl pb len l).1 ≤ OnCount note l := by
  intro l
  induction l with
  | nil => simp [processVoiceList]
  | cons v rest ih =>
      simp only [processVoiceList, OnCount]
      by_cases hact : v.active = true
      · simp only [hact, if_true]
        rcases process_phase fo impl v pb len with hp | hp
        · rw [hp]; omega
        · rw [hp]
          by_cases hv : v.phase = VoicePhase.On note <;> simp [hv] <;> omega
      · simp [hact]
        omega

/-- What the polyphonic branch of `Synth::trigger` computes, given the
selected index and handle. -/
theorem trigger_poly_eq {V : Type} (fo : FloatOps) (impl : VoiceImpl V) (s : Synth V)
    (note : Note) (velocity : Nat) (hmono : s.mono = false)
    (i k : Nat) (v : VoiceHandle V)
    (hsel : selectVoice note s.voices = some (i, k))
    (hget : s.voices.get? i = some v) :
    Synth.trigger fo impl s note velocity =
      { s with
          voices := setIdx s.voices i
            (VoiceHandle.trigger fo impl
              (if v.active then
                VoiceHandle.reset impl (VoiceHandle.process fo impl v s.pitch_bend s.fade_out.N).1
               else v)
              note velocity (s.tuning note) s.voice_ctx),
          fade_out :=
            (if v.active then
              s.fade_out.add_voice (VoiceHandle.process fo impl v s.pitch_bend s.fade_out.N).2
             else s.fade_out),
          counter := s.counter + 1 } := by
  unfold Synth.trigger
  simp only [hmono, Bool.false_eq_true, if_false, hsel, hget]
  by_cases hact : v.active = true <;> simp [hact]

/-- `Synth::trigger` leaves the state unchanged in the degenerate case of an
empty voice bank (where the source would panic on `unwrap`). -/
theorem trigger_poly_none {V : Type} (fo : FloatOps) (impl : VoiceImpl V) (s : Synth V)
    (note : Note) (velocity : Nat) (hmono : s.mono = false)
    (hsel : selectVoice note s.voices = none) :
    Synth.trigger fo impl s note velocity = s := by
  unfold Synth.trigger
  simp only [hmono, Bool.false_eq_true, if_false, hsel]

/-- What the polyphonic branch of `Synth::release` computes on a match. -/
theorem release_poly_some {V : Type} (impl : VoiceImpl V) (s : Synth V) (note : Note)
    (hmono : s.mono = false) (l' : List (VoiceHandle V))
    (hrel : releaseAt impl s.voice_ctx note s.voices = some l') :
    Synth.release impl s note = { s with voices := l', counter := s.counter + 1 } := by
  unfold Synth.release
  simp only [hmono, Bool.false_eq_true, if_false, hrel]

/-- The polyphonic branch of `Synth::release` is the identity when no
handle's `note_on` matches. -/
theorem release_poly_none {V : Type} (impl : VoiceImpl V) (s : Synth V) (note : Note)
    (hmono : s.mono = false)
    (hrel : releaseAt impl s.voice_ctx note s.voices = none) :
    Synth.release impl s note = s := by
  unfold Synth.release
  simp only [hmono, Bool.false_eq_true, if_false, hrel]

/-- Polyphonic trigger preserves `OnCount ≤ 1` at every note. -/
theorem trigger_OnCount {V : Type} (fo : FloatOps) (impl : VoiceImpl V) (s : Synth V)
    (note : Note) (velocity : Nat) (hmono : s.mono = false)
    (hu : ∀ n, OnCount n s.voices ≤ 1) :
    ∀ n, OnCount n (Synth.trigger fo impl s note velocity).voices ≤ 1 := by
  intro n
  cases hsel : selectVoice note s.voices with
  | none =>
      rw [trigger_poly_none fo impl s note velocity hmono hsel]
      exact hu n
  | some p =>
      obtain ⟨i, k⟩ := p
      obtain ⟨v, hget, hpri⟩ := selectVoice_get? note s.voices i k hsel
      rw [trigger_poly_eq fo impl s note velocity hmono i k v hsel hget]
      simp only
      set v2 := VoiceHandle.trigger fo impl
        (if v.active then
          VoiceHandle.reset impl (VoiceHandle.process fo impl v s.pitch_bend s.fade_out.N).1
         else v)
        note velocity (s.tuning note) s.voice_ctx with hv2
      have hcount := OnCount_setIdx n s.voices i v v2 hget
      have hphase : v2.phase = VoicePhase.On note := trigger_phase fo impl _ note velocity _ _
      by_cases hn : n = note
      · subst hn
        by_cases hvon : v.phase = VoicePhase.On n
        · rw [if_pos hvon, if_pos hphase] at hcount
          have := hu n
          omega
        · have hzero : OnCount n s.voices = 0 := by
            by_contra hne
            have hpos : 1 ≤ OnCount n s.voices := Nat.one_le_iff_ne_zero.mpr hne
            obtain ⟨w, hw1, hw2⟩ := OnCount_pos n s.voices hpos
            have hmin := selectVoice_min n s.voices i k hsel w hw1
            have hwzero : w.priority n = 0 := (priority_eq_zero_iff w n).mpr hw2
            rw [hwzero] at hmin
            have : v.priority n = 0 := by omega
            exact hvon ((priority_eq_zero_iff v n).mp this)
          rw [if_neg hvon, if_pos hphase] at hcount
          omega
      · have hv2n : ¬ v2.phase = VoicePhase.On n := by
          rw [hphase]
          intro hcontra
          injection hcontra with hcontra
          exact hn hcontra.symm
        rw [if_neg hv2n] at hcount
        have := hu n
        by_cases hvon : v.phase = VoicePhase.On n <;> simp [hvon] at hcount <;> omega

/-- Release preserves `OnCount ≤ 1` at every note (polyphonic mode). -/
theorem release_OnCount {V : Type} (impl : VoiceImpl V) (s : Synth V)
    (note : Note) (hmono : s.mono = false)
    (hu : ∀ n, OnCount n s.voices ≤ 1) :
    ∀ n, OnCount n (Synth.release impl s note).voices ≤ 1 := by
  intro n
  cases hrel : releaseAt impl s.voice_ctx note s.voices with
  | none =>
      rw [release_poly_none impl s note hmono hrel]
      exact hu n
  | some l' =>
      rw [release_poly_some impl s note hmono l' hrel]
      simp only
      obtain ⟨i, v, hv1, hv2, hv3⟩ := releaseAt_some impl s.voice_ctx note s.voices l' hrel
      have hvon : v.phase = VoicePhase.On note := (note_on_eq_some_iff v note).mp hv2
      have hrel2 := release_phase_of_on impl v note s.voice_ctx hvon
      have hcount := OnCount_setIdx n s.voices i v (VoiceHandle.release impl v s.voice_ctx) hv1
      rw [← hv3] at hcount
      have hnotOn : ¬ (VoiceHandle.release impl v s.voice_ctx).phase = VoicePhase.On n := by
        rw [hrel2.1]
        intro hcontra
        exact absurd hcontra (by simp)
      simp only [hnotOn, if_false] at hcount
      have := hu n
      by_cases hvOnN : v.phase = VoicePhase.On n <;> simp [hvOnN] at hcount <;> omega

/-- Block processing preserves `OnCount ≤ 1` at every note. -/
theorem process_OnCount {V : Type} (fo : FloatOps) (impl : VoiceImpl V) (s : Synth V)
    (len : Nat) (hu : ∀ n, OnCount n s.voices ≤ 1) :
    ∀ n, OnCount n (Synth.process fo impl s len).1.voices ≤ 1 := by
  intro n
  unfold Synth.process
  simp only
  rw [OnCount_append]
  have h1 := processVoiceList_OnCount fo impl s.pitch_bend len n
    (s.voices.take (if s.mono then 1 else s.voices.length))
  have h2 : OnCount n (s.voices.take (if s.mono then 1 else s.voices.length))
      + OnCount n (s.voices.drop (if s.mono then 1 else s.voices.length))
      = OnCount n s.voices := by
    rw [← OnCount_append, List.take_append_drop]
  have := hu n
  omega

/-! ### Helper lemmas: operations never change the mode -/

theorem trigger_mono_field {V : Type} (fo : FloatOps) (impl : VoiceImpl V) (s : Synth V)
    (note : Note) (velocity : Nat) :
    (Synth.trigger fo impl s note velocity).mono = s.mono := by
  unfold Synth.trigger
  repeat' split
  all_goals rfl

theorem release_mono_field {V : Type} (impl : VoiceImpl V) (s : Synth V) (note : Note) :
    (Synth.release impl s note).mono = s.mono := by
  unfold Synth.release
  dsimp only
  repeat' split
  all_goals rfl

theorem process_mono_field {V : Type} (fo : FloatOps) (impl : VoiceImpl V) (s : Synth V)
    (len : Nat) :
    (Synth.process fo impl s len).1.mono = s.mono := rfl

theorem applyOp_mono {V : Type} (fo : FloatOps) (impl : VoiceImpl V) (s : Synth V)
    (op : SynthOp) : (applyOp fo impl s op).mono = s.mono := by
  cases op with
  | trig n v => exact trigger_mono_field fo impl s n v
  | rel n => exact release_mono_field impl s n
  | proc len => exact process_mono_field fo impl s len

/-! ### The claims -/

/-- C1: the priority key used for polyphonic voice selection is exactly the
spec's five-class key (0 / 1 / 2 / 3+counter / LARGE_OFFSET+counter, the
counter being the one recorded at the handle's last trigger or release);
`trigger` selects a handle achieving the minimum of this key; a released
handle always beats a handle still `On` another note (for every counter
value reachable before `usize` overflow); and within the two
counter-bearing classes the smaller (older) counter wins. -/
theorem claim1 {V : Type} (fo : FloatOps) (impl : VoiceImpl V) (note : Note) :
    (∀ h : VoiceHandle V, h.priority note = prioritySpec h note)
  ∧ (∀ (h : VoiceHandle V) (velocity : Nat) (pitch : ℚ) (ctx : VoiceCtx),
      (VoiceHandle.trigger fo impl h note velocity pitch ctx).counter = ctx.counter)
  ∧ (∀ (h : VoiceHandle V) (n : Note) (ctx : VoiceCtx), h.phase = VoicePhase.On n →
      (VoiceHandle.release impl h ctx).counter = ctx.counter)
  ∧ (∀ (l : List (VoiceHandle V)) (i k : Nat), selectVoice note l = some (i, k) →
      (∃ v, l.get? i = some v ∧ v.priority note = k) ∧ ∀ w ∈ l, k ≤ w.priority note)
  ∧ (∀ (s : Synth V) (velocity i k : Nat), s.mono = false →
      selectVoice note s.voices = some (i, k) →
      ∃ v2, (Synth.trigger fo impl s note velocity).voices = setIdx s.voices i v2 ∧
        v2.phase = VoicePhase.On note)
  ∧ (∀ (h1 h2 : VoiceHandle V) (m n : Note), h1.phase = VoicePhase.Released m →
      h2.phase = VoicePhase.On n → n ≠ note → h1.counter + 3 < USIZE_MAX / 2 →
      h1.priority note < h2.priority note)
  ∧ (∀ (h1 h2 : VoiceHandle V) (m n : Note), h1.phase = VoicePhase.Released m →
      m ≠ note → h2.phase = VoicePhase.Released n → n ≠ note →
      h1.counter < h2.counter → h1.priority note < h2.priority note)
  ∧ (∀ (h1 h2 : VoiceHandle V) (m n : Note), h1.phase = VoicePhase.On m →
      m ≠ note → h2.phase = VoicePhase.On n → n ≠ note →
      h1.counter < h2.counter → h1.priority note < h2.priority note) := by
  refine ⟨?_, ?_, ?_, ?_, ?_, ?_, ?_, ?_⟩
  · intro h
    unfold VoiceHandle.priority prioritySpec
    cases hp : h.phase with
    | On n => by_cases hn : n = note <;> simp [hn]
    | Released n => by_cases hn : n = note <;> simp [hn]
    | Off => simp
  · intro h velocity pitch ctx
    exact trigger_counter fo impl h note velocity pitch ctx
  · intro h n ctx hp
    unfold VoiceHandle.release
    rw [hp]
  · intro l i k hsel
    exact ⟨selectVoice_get? note l i k hsel, selectVoice_min note l i k hsel⟩
  · intro s velocity i k hmono hsel
    obtain ⟨v, hget, _⟩ := selectVoice_get? note s.voices i k hsel
    rw [trigger_poly_eq fo impl s note velocity hmono i k v hsel hget]
    exact ⟨_, rfl, trigger_phase fo impl _ note velocity _ _⟩
  · intro h1 h2 m n hp1 hp2 hn hc
    simp only [VoiceHandle.priority, hp1, hp2]
    rw [if_neg hn]
    by_cases hm : m = note
    · rw [if_pos hm]
      omega
    · rw [if_neg hm]
      omega
  · intro h1 h2 m n hp1 hm hp2 hn hc
    simp only [VoiceHandle.priority, hp1, hp2]
    rw [if_neg hm, if_neg hn]
    omega
  · intro h1 h2 m n hp1 hm hp2 hn hc
    simp only [VoiceHandle.priority, hp1, hp2]
    rw [if_neg hm, if_neg hn]
    omega

/-- Witness for C1: a `Released` handle with counter 5 beats an `On` handle
on another note, at note 60. -/
theorem claim1_witness :
    VoiceHandle.priority ⟨(), VoicePhase.Released 61, 1, none, 5⟩ 60 <
      VoiceHandle.priority ⟨(), VoicePhase.On 62, 1, none, 0⟩ 60 :=
  (claim1 idOps unitImpl 60).2.2.2.2.2.1
    ⟨(), VoicePhase.Released 61, 1, none, 5⟩ ⟨(), VoicePhase.On 62, 1, none, 0⟩
    61 62 rfl rfl (by decide) (by decide)

/-- C3: starting from any fresh polyphonic synth (all handles `Off`), every
sequence of trigger, release and process events leaves at most one handle
in phase `On note`, for every note. -/
theorem claim3 {V : Type} (fo : FloatOps) (impl : VoiceImpl V) (s0 : Synth V)
    (hmono : s0.mono = false) (hfresh : ∀ v ∈ s0.voices, v.phase = VoicePhase.Off)
    (l : List SynthOp) (note : Note) :
    OnCount note (List.foldl (applyOp fo impl) s0 l).voices ≤ 1 := by
  have key : ∀ (l : List SynthOp) (s : Synth V), s.mono = false →
      (∀ n, OnCount n s.voices ≤ 1) →
      ∀ n, OnCount n (List.foldl (applyOp fo impl) s l).voices ≤ 1 := by
    intro l
    induction l with
    | nil => intro s _ hu; exact hu
    | cons op rest ih =>
        intro s hm hu
        apply ih
        · rw [applyOp_mono]
          exact hm
        · cases op with
          | trig n v => exact trigger_OnCount fo impl s n v hm hu
          | rel n => exact release_OnCount impl s n hm hu
          | proc len => exact process_OnCount fo impl s len hu
  exact key l s0 hmono
    (fun n => by rw [OnCount_eq_zero n s0.voices hfresh]; omega) note

/-- Witness for C3: a concrete event sequence on the fresh two-voice synth. -/
theorem claim3_witness :
    OnCount 64 (List.foldl (applyOp idOps unitImpl) synthA
      [SynthOp.trig 60 100, SynthOp.trig 64 100, SynthOp.rel 60,
       SynthOp.trig 67 100, SynthOp.proc 4]).voices ≤ 1 :=
  claim3 idOps unitImpl synthA rfl (by decide) _ 64

/-- An inactive handle is exactly one in phase `Off`. -/
theorem active_false_phase {V : Type} (v : VoiceHandle V) (h : ¬ v.active = true) :
    v.phase = VoicePhase.Off := by
  unfold VoiceHandle.active at h
  simpa using h

/-- `calc_glide` never yields a glide for a handle that is not `On`. -/
theorem calc_glide_off {V : Type} (fo : FloatOps) (h : VoiceHandle V)
    (target_pitch : ℚ) (ctx : VoiceCtx) (hp : h.phase = VoicePhase.Off) :
    h.calc_glide fo target_pitch ctx = none := by
  unfold VoiceHandle.calc_glide
  rw [hp]

/-- The `usize` cast agrees with the mathematical floor, for computation. -/
theorem ratToUsize_eq (q : ℚ) : ratToUsize q = (⌊q⌋).toNat := by
  unfold ratToUsize
  rw [Rat.floor_def', ← Rat.floor_def]

/-- C2 (amended): in polyphonic trigger the crossfade render and the forced
reset happen exactly when the selected handle is active (phase `On` of any
note — including the note being retriggered — or `Released`); they are
skipped only when the selected handle is `Off`. -/
theorem claim2 {V : Type} (fo : FloatOps) (impl : VoiceImpl V) (s : Synth V)
    (note : Note) (velocity : Nat) (hmono : s.mono = false)
    (i k : Nat) (v : VoiceHandle V)
    (hsel : selectVoice note s.voices = some (i, k))
    (hget : s.voices.get? i = some v) :
    (v.active = true →
       (Synth.trigger fo impl s note velocity).fade_out
           = s.fade_out.add_voice (VoiceHandle.process fo impl v s.pitch_bend s.fade_out.N).2
         ∧ (Synth.trigger fo impl s note velocity).voices
           = setIdx s.voices i
               (VoiceHandle.trigger fo impl
                 (VoiceHandle.reset impl (VoiceHandle.process fo impl v s.pitch_bend s.fade_out.N).1)
                 note velocity (s.tuning note) s.voice_ctx))
  ∧ (v.active = false →
       (Synth.trigger fo impl s note velocity).fade_out = s.fade_out
         ∧ (Synth.trigger fo impl s note velocity).voices
           = setIdx s.voices i
               (VoiceHandle.trigger fo impl v note velocity (s.tuning note) s.voice_ctx)) := by
  rw [trigger_poly_eq fo impl s note velocity hmono i k v hsel hget]
  constructor
  · intro hact
    simp [hact]
  · intro hact
    simp [hact]

/-- Counterexample to C2 as stated: the selected handle of `synthR` is `On`
the very note being retriggered (60), yet the crossfade buffer receives a
render (its cursor moves from 4, fully consumed, to 0) — so the render and
reset are not restricted to steals of a handle `On` a *different* note. -/
theorem claim2_cex :
    ((synthR.voices.get? 0).map (fun v => v.phase) = some (VoicePhase.On 60))
  ∧ synthR.fade_out.index = 4
  ∧ (Synth.trigger idOps unitImpl synthR 60 100).fade_out.index = 0 := by
  refine ⟨rfl, rfl, ?_⟩
  decide

/-- Witness for C2 at a concrete input: the active branch fires on `synthR`. -/
theorem claim2_witness :
    (Synth.trigger idOps unitImpl synthR 60 100).fade_out
      = synthR.fade_out.add_voice
          (VoiceHandle.process idOps unitImpl ⟨(), VoicePhase.On 60, 4, none, 0⟩
            synthR.pitch_bend synthR.fade_out.N).2 :=
  ((claim2 idOps unitImpl synthR 60 100 rfl 0 0 ⟨(), VoicePhase.On 60, 4, none, 0⟩
      (by decide) (by decide)).1 (by decide)).1

/-- C4 (amended): `release(note)` matches only a handle whose phase is
`On note` (`note_on`); on a match it transitions that handle to
`Released note`, records the pre-increment counter in it, and increments
the scheduler counter exactly once; it is a no-op exactly when no handle is
`On note` — a handle merely in `Released note` is not matched. In mono mode
only the single first handle is considered. -/
theorem claim4 {V : Type} (impl : VoiceImpl V) (s : Synth V) (note : Note) :
    (s.mono = false → (∀ v ∈ s.voices, v.note_on ≠ some note) →
        Synth.release impl s note = s)
  ∧ (s.mono = false → ∀ l', releaseAt impl s.voice_ctx note s.voices = some l' →
        (Synth.release impl s note).counter = s.counter + 1
        ∧ ∃ i v, s.voices.get? i = some v ∧ v.phase = VoicePhase.On note
            ∧ (Synth.release impl s note).voices
                = setIdx s.voices i (VoiceHandle.release impl v s.voice_ctx)
            ∧ (VoiceHandle.release impl v s.voice_ctx).phase = VoicePhase.Released note
            ∧ (VoiceHandle.release impl v s.voice_ctx).counter = s.counter)
  ∧ (s.mono = true → ∀ v rest, s.voices = v :: rest →
        (v.note_on = some note →
           Synth.release impl s note
             = { s with voices := VoiceHandle.release impl v s.voice_ctx :: rest,
                        counter := s.counter + 1 })
        ∧ (v.note_on ≠ some note → Synth.release impl s note = s)) := by
  refine ⟨?_, ?_, ?_⟩
  · intro hmono hnone
    exact release_poly_none impl s note hmono
      ((releaseAt_none_iff impl s.voice_ctx note s.voices).mpr hnone)
  · intro hmono l' hrel
    rw [release_poly_some impl s note hmono l' hrel]
    obtain ⟨i, v, hv1, hv2, hv3⟩ := releaseAt_some impl s.voice_ctx note s.voices l' hrel
    have hvon : v.phase = VoicePhase.On note := (note_on_eq_some_iff v note).mp hv2
    have hph := release_phase_of_on impl v note s.voice_ctx hvon
    exact ⟨rfl, i, v, hv1, hvon, hv3, hph.1, hph.2⟩
  · intro hmono v rest hvoices
    constructor
    · intro hvnote
      unfold Synth.release
      rw [hvoices]
      simp only [hmono, if_true, hvnote, if_pos rfl]
    · intro hvnote
      unfold Synth.release
      rw [hvoices]
      simp only [hmono, if_true, hvnote]
      simp

/-- Counterexample to C4 as stated: the only handle of `synthRel` is
`Released 60` — a matching `Released` handle in the claim's sense — yet
`release(60)` is a complete no-op (the state, including the counter, is
unchanged), because the code matches via `note_on`, which is `none` for a
released handle. -/
theorem claim4_cex :
    ((synthRel.voices.get? 0).map (fun v => v.phase) = some (VoicePhase.Released 60))
  ∧ Synth.release unitImpl synthRel 60 = synthRel :=
  ⟨rfl, rfl⟩

/-- Witness for C4 at a concrete input: releasing the `On 60` handle of
`synthC` transitions it and bumps the counter. -/
theorem claim4_witness :
    (Synth.release unitImpl synthC 60).counter = synthC.counter + 1
    ∧ ∃ i v, synthC.voices.get? i = some v ∧ v.phase = VoicePhase.On 60
        ∧ (Synth.release unitImpl synthC 60).voices
            = setIdx synthC.voices i (VoiceHandle.release unitImpl v synthC.voice_ctx)
        ∧ (VoiceHandle.release unitImpl v synthC.voice_ctx).phase = VoicePhase.Released 60
        ∧ (VoiceHandle.release unitImpl v synthC.voice_ctx).counter = synthC.counter :=
  (claim4 unitImpl synthC 60).2.1 rfl [⟨(), VoicePhase.Released 60, 4, none, 9⟩] (by decide)

/-- C5 (amended): on trigger, the handle's glide becomes exactly what
`calc_glide` computes, and `calc_glide` yields a glide exactly when the
handle is in phase `On` — of *any* note, the triggered note is never
compared — and portamento is not `Off`; never for `Off`/`Released` handles
and never under `Portamento::Off`. -/
theorem claim5 {V : Type} (fo : FloatOps) (impl : VoiceImpl V) (h : VoiceHandle V)
    (note : Note) (velocity : Nat) (pitch : ℚ) (ctx : VoiceCtx) :
    ((VoiceHandle.trigger fo impl h note velocity pitch ctx).glide
        = h.calc_glide fo pitch ctx)
  ∧ ((h.calc_glide fo pitch ctx).isSome = true ↔
      ((∃ n, h.phase = VoicePhase.On n) ∧ ctx.portamento ≠ Portamento.Off)) :=
  ⟨trigger_glide fo impl h note velocity pitch ctx,
   calc_glide_isSome_iff fo h pitch ctx⟩

/-- Counterexample to C5 as stated: the mono synth `synthM` has its handle
`On 60` and note 60 is retriggered — the same note, not a different one —
yet a GlideState is created. -/
theorem claim5_cex :
    ((synthM.voices.get? 0).map (fun v => v.phase) = some (VoicePhase.On 60))
  ∧ (((Synth.trigger idOps unitImpl synthM 60 100).voices.get? 0).map (fun v => v.glide)
      = some (some ⟨4, 4, 2, 0⟩)) := by
  constructor
  · rfl
  · simp [Synth.trigger, synthM, Synth.voice_ctx, VoiceHandle.trigger,
      VoiceHandle.calc_glide, VoiceHandle.resolvedPitch, idOps]
    rw [ratToUsize_eq]
    norm_num
    decide

/-- C6: glide durations are `time * sample_rate` under `Fixed` (whatever
the pitch interval), `rate * |log2 f1 - log2 f2| * sample_rate` under
`Variable`, both truncated to `usize`; and block processing never changes a
stored duration — only the elapsed time advances, clearing the glide once
it reaches the duration. -/
theorem claim6 {V : Type} (fo : FloatOps) (impl : VoiceImpl V) (h : VoiceHandle V)
    (pitch : ℚ) (ctx : VoiceCtx) :
    (∀ t n, ctx.portamento = Portamento.Fixed t → h.phase = VoicePhase.On n →
       h.calc_glide fo pitch ctx
         = some ⟨fo.log2 (h.resolvedPitch fo), fo.log2 pitch,
                 ratToUsize (t * (ctx.sample_rate : ℚ)), 0⟩)
  ∧ (∀ r n, ctx.portamento = Portamento.Variable r → h.phase = VoicePhase.On n →
       h.calc_glide fo pitch ctx
         = some ⟨fo.log2 (h.resolvedPitch fo), fo.log2 pitch,
                 ratToUsize (r * |fo.log2 (h.resolvedPitch fo) - fo.log2 pitch|
                   * (ctx.sample_rate : ℚ)), 0⟩)
  ∧ (∀ (pb : ℚ) (len : Nat) (g : GlideState), h.glide = some g →
       (VoiceHandle.process fo impl h pb len).1.glide
         = if g.duration ≤ g.time + len then none
           else some ⟨g.start, g.target, g.duration, g.time + len⟩) := by
  refine ⟨?_, ?_, ?_⟩
  · intro t n hport hp
    unfold VoiceHandle.calc_glide
    rw [hp, hport]
  · intro r n hport hp
    unfold VoiceHandle.calc_glide
    rw [hp, hport]
  · intro pb len g hg
    unfold VoiceHandle.process
    simp only [hg]
    by_cases hd : g.duration ≤ g.time + len
    · simp [hd]
    · simp [hd]

/-- Witness for C6 at a concrete input: `Fixed 3` at sample rate 2 gives
duration 6 whatever the target pitch. -/
theorem claim6_witness :
    VoiceHandle.calc_glide idOps (⟨(), VoicePhase.On 60, 4, none, 0⟩ : VoiceHandle Unit)
      8 ⟨2, Portamento.Fixed 3, 0⟩ = some ⟨4, 8, 6, 0⟩ := by
  rw [(claim6 idOps unitImpl (⟨(), VoicePhase.On 60, 4, none, 0⟩ : VoiceHandle Unit)
    8 ⟨2, Portamento.Fixed 3, 0⟩).1 3 60 rfl rfl]
  simp [idOps, VoiceHandle.resolvedPitch]
  rw [ratToUsize_eq]
  norm_num
  decide

/-- C7: after `add_voice` with old read cursor `c`, every in-range slot `i`
holds the fresh render faded by `1 - i/N`, plus — exactly when `i < N - c` —
the un-re-faded old sample at position `c + i`; and the cursor is reset
to 0. -/
theorem claim7 (fb : FadeBuffer) (render : Fin 2 → Nat → ℚ) (ch : Fin 2) (i : Nat)
    (hi : i < fb.N) :
    ((fb.add_voice render).index = 0)
  ∧ (i < fb.N - fb.index →
      (fb.add_voice render).buffer ch i
        = render ch i * (1 - (i : ℚ) / (fb.N : ℚ)) + fb.buffer ch (fb.index + i))
  ∧ (¬ i < fb.N - fb.index →
      (fb.add_voice render).buffer ch i = render ch i * (1 - (i : ℚ) / (fb.N : ℚ))) := by
  refine ⟨rfl, ?_, ?_⟩
  · intro h
    simp [FadeBuffer.add_voice, hi, h]
  · intro h
    simp [FadeBuffer.add_voice, hi, h]

/-- Witness for C7: a 2-slot buffer with cursor 1; slot 0 receives the
faded fresh sample plus the unread old tail sample. -/
theorem claim7_witness :
    (FadeBuffer.add_voice ⟨2, fun _ i => (i : ℚ) + 1, 1⟩ (fun _ _ => 2)).buffer 0 0
      = 2 * (1 - (0 : ℚ) / 2) + 2 := by
  have h := (claim7 ⟨2, fun _ i => (i : ℚ) + 1, 1⟩ (fun _ _ => 2) 0 0 (by decide)).2.1
    (by decide)
  rw [h]
  norm_num

/-- C8: `process` adds exactly `min(len, N - cursor)` buffer samples to the
start of each output channel, leaves every other output sample unchanged,
and advances the cursor by that amount; the cursor never decreases, stays
within `[0, N]`, and once it equals `N` the output is left entirely
unchanged and the cursor stays at `N`. -/
theorem claim8 (fb : FadeBuffer) (len : Nat) (out : Fin 2 → Nat → ℚ) :
    (∀ (ch : Fin 2) (idx : Nat), idx < min len (fb.N - fb.index) →
       (fb.process len out).1 ch idx = out ch idx + fb.buffer ch (fb.index + idx))
  ∧ (∀ (ch : Fin 2) (idx : Nat), ¬ idx < min len (fb.N - fb.index) →
       (fb.process len out).1 ch idx = out ch idx)
  ∧ ((fb.process len out).2.index = fb.index + min len (fb.N - fb.index))
  ∧ (fb.index ≤ (fb.process len out).2.index)
  ∧ (fb.index ≤ fb.N → (fb.process len out).2.index ≤ fb.N)
  ∧ (fb.index = fb.N →
       (∀ (ch : Fin 2) (idx : Nat), (fb.process len out).1 ch idx = out ch idx)
       ∧ (fb.process len out).2.index = fb.N) := by
  refine ⟨?_, ?_, rfl, ?_, ?_, ?_⟩
  · intro ch idx h
    exact if_pos h
  · intro ch idx h
    exact if_neg h
  · exact Nat.le_add_right _ _
  · intro hle
    show fb.index + min len (fb.N - fb.index) ≤ fb.N
    omega
  · intro heq
    constructor
    · intro ch idx
      simp [FadeBuffer.process, heq]
    · show fb.index + min len (fb.N - fb.index) = fb.N
      rw [heq]
      simp

/-- Witness for C8: a 3-slot buffer with cursor 1 keeps its cursor within
the capacity after processing a block of length 1. -/
theorem claim8_witness :
    (FadeBuffer.process ⟨3, fun _ i => (i : ℚ), 1⟩ 1 (fun _ _ => 0)).2.index ≤ 3 :=
  (claim8 ⟨3, fun _ i => (i : ℚ), 1⟩ 1 (fun _ _ => 0)).2.2.2.2.1 (by decide)

/-- C9: in polyphonic mode, trigger never creates a GlideState regardless
of the portamento setting: every handle of the resulting bank is either
untouched or has no glide (the selected handle is reset to `Off` — or was
already `Off` — before being retargeted, and `calc_glide` yields none for a
non-`On` handle). -/
theorem claim9 {V : Type} (fo : FloatOps) (impl : VoiceImpl V) (s : Synth V)
    (note : Note) (velocity : Nat) (hmono : s.mono = false) (j : Nat) (w : VoiceHandle V)
    (hw : (Synth.trigger fo impl s note velocity).voices.get? j = some w) :
    s.voices.get? j = some w ∨ w.glide = none := by
  cases hsel : selectVoice note s.voices with
  | none =>
      left
      rw [trigger_poly_none fo impl s note velocity hmono hsel] at hw
      exact hw
  | some p =>
      obtain ⟨i, k⟩ := p
      obtain ⟨v, hget, _⟩ := selectVoice_get? note s.voices i k hsel
      rw [trigger_poly_eq fo impl s note velocity hmono i k v hsel hget] at hw
      dsimp only at hw
      by_cases hij : i = j
      · subst hij
        rw [get?_setIdx_self s.voices i _ v hget] at hw
        injection hw with hw
        right
        rw [← hw, trigger_glide]
        apply calc_glide_off
        by_cases hact : v.active = true
        · simp [hact, VoiceHandle.reset]
        · simp only [hact, Bool.false_eq_true, if_false]
          exact active_false_phase v hact
      · left
        rw [get?_setIdx_ne s.voices i j _ hij] at hw
        exact hw

/-- Witness for C9: polyphonic steal with `Variable` portamento configured
still retargets the handle with no glide. -/
theorem claim9_witness :
    synthB.voices.get? 0 = some ⟨(), VoicePhase.On 64, 4, none, 0⟩
      ∨ (⟨(), VoicePhase.On 64, 4, none, 0⟩ : VoiceHandle Unit).glide = none :=
  claim9 idOps unitImpl synthB 64 100 rfl 0 ⟨(), VoicePhase.On 64, 4, none, 0⟩ (by decide)

/-- C10 fails on the code: `calc_glide` creates GlideStates with
`duration = 0` — under `Variable` portamento when the current and target
pitches coincide (a mono same-note retrigger), and under `Fixed 0` — so the
division `elapsed/duration` in `VoiceHandle::pitch` does evaluate `0/0`
(producing NaN in `f32`) on the next processed block. -/
theorem claim10 :
    (VoiceHandle.calc_glide idOps (⟨(), VoicePhase.On 60, 4, none, 0⟩ : VoiceHandle Unit)
        4 ⟨48000, Portamento.Variable 1, 0⟩ = some ⟨4, 4, 0, 0⟩)
  ∧ (VoiceHandle.calc_glide idOps (⟨(), VoicePhase.On 60, 4, none, 0⟩ : VoiceHandle Unit)
        4 ⟨48000, Portamento.Fixed 0, 5⟩ = some ⟨4, 4, 0, 0⟩) := by
  constructor
  · simp [VoiceHandle.calc_glide, VoiceHandle.resolvedPitch, idOps]
    rw [ratToUsize_eq]
    norm_num
  · simp [VoiceHandle.calc_glide, VoiceHandle.resolvedPitch, idOps]
    rw [ratToUsize_eq]
    norm_num

/-- Witness for C5 at a concrete input: a trigger on an `Off` handle with
portamento enabled installs exactly what `calc_glide` computed (none). -/
theorem claim5_witness :
    (VoiceHandle.trigger idOps unitImpl (⟨(), VoicePhase.Off, 4, none, 0⟩ : VoiceHandle Unit)
        72 100 8 ⟨2, Portamento.Fixed 3, 0⟩).glide
      = VoiceHandle.calc_glide idOps (⟨(), VoicePhase.Off, 4, none, 0⟩ : VoiceHandle Unit)
          8 ⟨2, Portamento.Fixed 3, 0⟩ :=
  (claim5 idOps unitImpl ⟨(), VoicePhase.Off, 4, none, 0⟩ 72 100 8 ⟨2, Portamento.Fixed 3, 0⟩).1
